import Mathlib

/-!
Shallow embedding of the hvu configuration diff/classify/merge engine
(package values: values.go and images.go).

Strings are modelled as lists of characters (UTF-8 byte order on Go
strings coincides with codepoint order, so lexicographic comparison of
codepoints is faithful).  Go maps are modelled as association lists with
insert-or-replace writes; map reads are first-match lookups.
-/

/-- A dynamically typed Go value as produced by YAML parsing: scalars,
sequences, and string-keyed maps. -/
inductive GoVal where
  | vNull : GoVal
  | vBool : Bool → GoVal
  | vInt : Int → GoVal
  | vStr : String → GoVal
  | vSeq : List GoVal → GoVal
  | vMap : List (List Char × GoVal) → GoVal

mutual

/-- Boolean structural equality on dynamic values. -/
def GoVal.beq : GoVal → GoVal → Bool
  | .vNull, .vNull => true
  | .vBool a, .vBool b => a == b
  | .vInt a, .vInt b => a == b
  | .vStr a, .vStr b => a == b
  | .vSeq xs, .vSeq ys => GoVal.beqList xs ys
  | .vMap m, .vMap n => GoVal.beqKVs m n
  | _, _ => false

/-- Boolean structural equality on lists of dynamic values. -/
def GoVal.beqList : List GoVal → List GoVal → Bool
  | [], [] => true
  | x :: xs, y :: ys => GoVal.beq x y && GoVal.beqList xs ys
  | _, _ => false

/-- Boolean structural equality on key-value lists. -/
def GoVal.beqKVs : List (List Char × GoVal) → List (List Char × GoVal) → Bool
  | [], [] => true
  | (k, v) :: xs, (l, w) :: ys => k == l && GoVal.beq v w && GoVal.beqKVs xs ys
  | _, _ => false

end

instance : BEq GoVal := ⟨GoVal.beq⟩

mutual

theorem GoVal.beq_iff : ∀ (a b : GoVal), GoVal.beq a b = true ↔ a = b
  | .vNull, b => by cases b <;> simp [GoVal.beq]
  | .vBool x, b => by cases b <;> simp [GoVal.beq]
  | .vInt x, b => by cases b <;> simp [GoVal.beq]
  | .vStr x, b => by cases b <;> simp [GoVal.beq]
  | .vSeq xs, b => by
      cases b <;> simp [GoVal.beq]
      exact GoVal.beqList_iff xs _
  | .vMap m, b => by
      cases b <;> simp [GoVal.beq]
      exact GoVal.beqKVs_iff m _

theorem GoVal.beqList_iff : ∀ (xs ys : List GoVal), GoVal.beqList xs ys = true ↔ xs = ys
  | [], ys => by cases ys <;> simp [GoVal.beqList]
  | x :: xs, [] => by simp [GoVal.beqList]
  | x :: xs, y :: ys => by
      simp [GoVal.beqList, GoVal.beq_iff x y, GoVal.beqList_iff xs ys]

theorem GoVal.beqKVs_iff : ∀ (m n : List (List Char × GoVal)), GoVal.beqKVs m n = true ↔ m = n
  | [], n => by cases n <;> simp [GoVal.beqKVs]
  | (k, v) :: xs, [] => by simp [GoVal.beqKVs]
  | (k, v) :: xs, (l, w) :: ys => by
      simp [GoVal.beqKVs, GoVal.beq_iff v w, GoVal.beqKVs_iff xs ys]

end

instance : DecidableEq GoVal :=
  fun a b => decidable_of_iff (GoVal.beq a b = true) (GoVal.beq_iff a b)

instance : LawfulBEq GoVal where
  eq_of_beq h := (GoVal.beq_iff _ _).mp h
  rfl := (GoVal.beq_iff _ _).mpr rfl

/-- A Go map from string to interface value, as an association list. -/
abbrev GoMap := List (List Char × GoVal)

/-- Map read: first matching key. -/
def lookupKV : GoMap → List Char → Option GoVal
  | [], _ => none
  | (k, v) :: rest, key => if k = key then some v else lookupKV rest key

/-- Map write: replace the binding if the key is present, else append. -/
def insertKV : GoMap → List Char → GoVal → GoMap
  | [], key, value => [(key, value)]
  | (k, v) :: rest, key, value =>
    if k = key then (key, value) :: rest else (k, v) :: insertKV rest key value

/-- The path separator used in flattened keys, two colons. -/
def sepL : List Char := [':', ':']

/-- Count of non-overlapping occurrences of the separator, as in
strings.Count with a left-to-right scan. -/
def countSep : List Char → Nat
  | [] => 0
  | [_] => 0
  | c1 :: c2 :: rest =>
    if c1 = ':' ∧ c2 = ':' then countSep rest + 1
    else countSep (c2 :: rest)

/-- Split on each non-overlapping occurrence of the separator, as in
strings.Split. -/
def splitSep : List Char → List (List Char)
  | [] => [[]]
  | [c] => [[c]]
  | c1 :: c2 :: rest =>
    if c1 = ':' ∧ c2 = ':' then [] :: splitSep rest
    else
      match splitSep (c2 :: rest) with
      | [] => [[c1]]
      | part :: parts => (c1 :: part) :: parts

/-- Join a list of parts with the separator, as in strings.Join. -/
def joinSep : List (List Char) → List Char
  | [] => []
  | [p] => p
  | p :: ps => p ++ ':' :: ':' :: joinSep ps

/-- Replace each occurrence of the separator by a backslash followed by
the separator (escapeKeyDots over character lists). -/
def escapeChars : List Char → List Char
  | [] => []
  | [c] => [c]
  | c1 :: c2 :: rest =>
    if c1 = ':' ∧ c2 = ':' then '\\' :: ':' :: ':' :: escapeChars rest
    else c1 :: escapeChars (c2 :: rest)

/-- Replace each occurrence of backslash-separator by the separator
(unescapeKeyDots over character lists). -/
def unescapeChars : List Char → List Char
  | [] => []
  | [c] => [c]
  | [c1, c2] => [c1, c2]
  | c1 :: c2 :: c3 :: rest =>
    if c1 = '\\' ∧ c2 = ':' ∧ c3 = ':' then ':' :: ':' :: unescapeChars rest
    else c1 :: unescapeChars (c2 :: c3 :: rest)

/-- Replace each occurrence of the separator by a dot
(PathToDisplayFormat over character lists). -/
def displayChars : List Char → List Char
  | [] => []
  | [c] => [c]
  | c1 :: c2 :: rest =>
    if c1 = ':' ∧ c2 = ':' then '.' :: displayChars rest
    else c1 :: displayChars (c2 :: rest)

/-- Lexicographic strict order on character lists (Go string comparison:
UTF-8 byte order, which equals codepoint order). -/
def lexLt : List Char → List Char → Bool
  | [], [] => false
  | [], _ :: _ => true
  | _ :: _, [] => false
  | a :: as, b :: bs => if a < b then true else if b < a then false else lexLt as bs

/-- String-level escapeKeyDots from values.go. -/
def escapeKeyDots (key : String) : String := ⟨escapeChars key.data⟩

/-- String-level unescapeKeyDots from values.go. -/
def unescapeKeyDots (key : String) : String := ⟨unescapeChars key.data⟩

/-- String-level PathToDisplayFormat from values.go. -/
def PathToDisplayFormat (path : String) : String := ⟨displayChars path.data⟩

/-- Full key construction in the flatten helper: the escaped key alone
when the prefix is empty, else prefix, separator, escaped key. -/
def mkFullKey (pfx key : List Char) : List Char :=
  let ek := escapeChars key
  if pfx = [] then ek else pfx ++ ':' :: ':' :: ek

mutual

/-- The body of the flatten helper loop for one key-value pair. -/
def flattenOne (pfx : List Char) (key : List Char) (v : GoVal) (res : GoMap) : GoMap :=
  match v with
  | .vMap [] => insertKV res (mkFullKey pfx key) (.vMap [])
  | .vMap (e :: es) => flattenEntries (mkFullKey pfx key) (e :: es) res
  | _ => insertKV res (mkFullKey pfx key) v

/-- The flatten helper of values.go: iterate over the entries of a
nested map, accumulating flat bindings. -/
def flattenEntries : List Char → List (List Char × GoVal) → GoMap → GoMap
  | _, [], res => res
  | pfx, (k, v) :: rest, res => flattenEntries pfx rest (flattenOne pfx k v res)

end

/-- Flatten from values.go: convert a nested map to a flat map with
separator-joined keys. -/
def Flatten (data : GoMap) : GoMap := flattenEntries [] data []

/-- Comparator used by Unflatten to order paths: deeper paths first,
ties broken lexicographically. -/
def pathLess (a b : List Char) : Bool :=
  if countSep a = countSep b then lexLt a b else decide (countSep b < countSep a)

/-- Insert a path into a list sorted by the Unflatten comparator. -/
def insSortedPath (a : List Char) : List (List Char) → List (List Char)
  | [] => [a]
  | b :: bs => if pathLess a b then a :: b :: bs else b :: insSortedPath a bs

/-- Sort paths by the Unflatten comparator. -/
def sortPaths : List (List Char) → List (List Char)
  | [] => []
  | a :: as => insSortedPath a (sortPaths as)

/-- The body of the Unflatten loop for a single path: walk the split
parts, creating nested maps for non-final parts, and set the value at
the final part unless an existing entry would be overwritten by an
empty map. -/
def setPath (tree : GoMap) (parts : List (List Char)) (value : GoVal) : GoMap :=
  match parts with
  | [] => tree
  | [p] =>
    let key := unescapeChars p
    match lookupKV tree key with
    | none => insertKV tree key value
    | some _ =>
      match value with
      | .vMap [] => tree
      | _ => insertKV tree key value
  | p :: rest =>
    let key := unescapeChars p
    let nested :=
      match lookupKV tree key with
      | some (.vMap m) => m
      | _ => []
    insertKV tree key (.vMap (setPath nested rest value))

/-- Unflatten from values.go: sort the paths deepest-first and rebuild
the nested map. -/
def Unflatten (flat : GoMap) : GoMap :=
  let paths := sortPaths (flat.map Prod.fst)
  paths.foldl
    (fun tree path =>
      match lookupKV flat path with
      | some value => setPath tree (splitSep path) value
      | none => tree)
    []

/-- ValuesEqual from values.go: nil handling then deep equality. -/
def ValuesEqual (a b : GoVal) : Bool :=
  match a, b with
  | .vNull, .vNull => true
  | .vNull, _ => false
  | _, .vNull => false
  | x, y => GoVal.beq x y

/-- Classification of a user value against the defaults. -/
inductive Classification where
  | customized
  | copiedDefault
  | unknown
deriving DecidableEq

/-- An entry of the classification result. -/
structure ClassifiedValue where
  Path : List Char
  UserValue : GoVal
  DefaultValue : GoVal
  Classification : Classification
deriving DecidableEq

/-- The aggregate classification result. -/
structure ClassificationResult where
  Entries : List ClassifiedValue
  Customized : Nat
  CopiedDefault : Nat
  Unknown : Nat
  Total : Nat
deriving DecidableEq

/-- Scan of findParentEmptyMap: check the joins of the first n, n-1,
..., 1 parts and return the first whose binding in the defaults is an
empty map; the empty string signals failure. -/
def findPEMAux (parts : List (List Char)) (defaults : GoMap) : Nat → List Char
  | 0 => []
  | n + 1 =>
    let parentPath := joinSep (parts.take (n + 1))
    match lookupKV defaults parentPath with
    | some (.vMap []) => parentPath
    | _ => findPEMAux parts defaults n

/-- findParentEmptyMap from values.go. -/
def findParentEmptyMap (path : List Char) (defaults : GoMap) : List Char :=
  let parts := splitSep path
  findPEMAux parts defaults (parts.length - 1)

/-- Scan of findParentWithChildren: check the joins of the first n,
..., 1 parts and return the first that is a proper string prefix of
some key of the defaults when extended with the separator. -/
def findPWCAux (parts : List (List Char)) (defaults : GoMap) : Nat → List Char
  | 0 => []
  | n + 1 =>
    let parentPath := joinSep (parts.take (n + 1))
    if defaults.any (fun kv => (parentPath ++ ':' :: ':' :: []).isPrefixOf kv.1)
    then parentPath
    else findPWCAux parts defaults n

/-- findParentWithChildren from values.go. -/
def findParentWithChildren (path : List Char) (defaults : GoMap) : List Char :=
  let parts := splitSep path
  findPWCAux parts defaults (parts.length - 1)

/-- The classification of one user binding, as computed by the body of
the Classify loop. -/
def classifyEntry (path : List Char) (userVal : GoVal) (defaults : GoMap) : ClassifiedValue :=
  match lookupKV defaults path with
  | some defaultVal =>
    if ValuesEqual userVal defaultVal
    then ⟨path, userVal, defaultVal, .copiedDefault⟩
    else ⟨path, userVal, defaultVal, .customized⟩
  | none =>
    if findParentEmptyMap path defaults ≠ []
    then ⟨path, userVal, .vNull, .customized⟩
    else if findParentWithChildren path defaults ≠ []
    then ⟨path, userVal, .vNull, .customized⟩
    else ⟨path, userVal, .vNull, .unknown⟩

/-- One step of the Classify loop: classify the binding, append the
entry, bump the matching counter and the total. -/
def classifyStep (defaults : GoMap) (acc : ClassificationResult)
    (kv : List Char × GoVal) : ClassificationResult :=
  let e := classifyEntry kv.1 kv.2 defaults
  { Entries := acc.Entries ++ [e]
    Customized := acc.Customized + (if e.Classification = .customized then 1 else 0)
    CopiedDefault := acc.CopiedDefault + (if e.Classification = .copiedDefault then 1 else 0)
    Unknown := acc.Unknown + (if e.Classification = .unknown then 1 else 0)
    Total := acc.Total + 1 }

/-- Insert an entry into a list sorted by path. -/
def insSortedEntry (e : ClassifiedValue) : List ClassifiedValue → List ClassifiedValue
  | [] => [e]
  | f :: fs => if lexLt e.Path f.Path then e :: f :: fs else f :: insSortedEntry e fs

/-- Sort entries by path, as the final sort.Slice of Classify. -/
def sortEntries : List ClassifiedValue → List ClassifiedValue
  | [] => []
  | e :: es => insSortedEntry e (sortEntries es)

/-- Classify from values.go: classify every user binding against the
defaults, then sort the entries by path. -/
def Classify (userValues defaultValues : GoMap) : ClassificationResult :=
  let r := userValues.foldl (classifyStep defaultValues) ⟨[], 0, 0, 0, 0⟩
  { r with Entries := sortEntries r.Entries }

/-- The body of the findCustomizedParentMaps loop for one user binding:
mark the immediate parent of a user path missing from the old defaults
when that parent is not an empty map in the old defaults and some other
old path lies strictly under it. -/
def markCustomizedParent (oldDefaults : GoMap) (acc : List (List Char))
    (kv : List Char × GoVal) : List (List Char) :=
  if (lookupKV oldDefaults kv.1).isSome then acc
  else
    let parts := splitSep kv.1
    if parts.length < 2 then acc
    else
      let parentPath := joinSep (parts.take (parts.length - 1))
      match lookupKV oldDefaults parentPath with
      | some (.vMap []) => acc
      | _ =>
        if oldDefaults.any (fun okv =>
            (parentPath ++ ':' :: ':' :: []).isPrefixOf okv.1 && okv.1 ≠ kv.1)
        then parentPath :: acc
        else acc

/-- findCustomizedParentMaps from values.go. -/
def findCustomizedParentMaps (userValues oldDefaults : GoMap) : List (List Char) :=
  userValues.foldl (markCustomizedParent oldDefaults) []

/-- Scan of isUnderCustomizedParent over the ancestor joins. -/
def isUnderAux (parts : List (List Char)) (cps : List (List Char)) : Nat → Bool
  | 0 => false
  | n + 1 =>
    if joinSep (parts.take (n + 1)) ∈ cps then true
    else isUnderAux parts cps n

/-- isUnderCustomizedParent from values.go. -/
def isUnderCustomizedParent (path : List Char) (cps : List (List Char)) : Bool :=
  let parts := splitSep path
  isUnderAux parts cps (parts.length - 1)

/-- One step of the first Merge loop: copy a new-defaults binding
unless its path lies under a customized parent. -/
def mergeBaseStep (customizedParents : List (List Char)) (res : GoMap)
    (kv : List Char × GoVal) : GoMap :=
  if isUnderCustomizedParent kv.1 customizedParents then res
  else insertKV res kv.1 kv.2

/-- One step of the second Merge loop: overlay a user binding when it
is absent from or not deep-equal to the old defaults. -/
def mergeOverlayStep (oldDefaults : GoMap) (res : GoMap)
    (kv : List Char × GoVal) : GoMap :=
  match lookupKV oldDefaults kv.1 with
  | some oldDefault =>
    if ValuesEqual kv.2 oldDefault then res else insertKV res kv.1 kv.2
  | none => insertKV res kv.1 kv.2

/-- Merge from values.go: start from the new defaults minus the paths
under customized parents, then overlay the user bindings that are
absent from or unequal to the old defaults. -/
def Merge (userValues oldDefaults newDefaults : GoMap) : GoMap :=
  let customizedParents := findCustomizedParentMaps userValues oldDefaults
  let base := newDefaults.foldl (mergeBaseStep customizedParents) []
  userValues.foldl (mergeOverlayStep oldDefaults) base

/-- A detected image tag change, from images.go. -/
structure ImageChange where
  Path : List Char
  UserTag : String
  OldDefault : String
  NewDefault : String
  IsCustomized : Bool
deriving DecidableEq

/-- The image tag path suffix patterns of images.go. -/
def imageTagPatterns : List (List Char) := ["::tag".data, "::image::tag".data]

/-- isImageTagPath from images.go. -/
def isImageTagPath (path : List Char) : Bool :=
  imageTagPatterns.any (fun pat => pat.isSuffixOf path)

/-- The body of the DetectCustomImageTags loop for one user binding. -/
def detectStep (oldDefaults newDefaults : GoMap) (changes : List ImageChange)
    (kv : List Char × GoVal) : List ImageChange :=
  if isImageTagPath kv.1 then
    match kv.2 with
    | .vStr userTag =>
      match lookupKV oldDefaults kv.1, lookupKV newDefaults kv.1 with
      | some (.vStr oldStr), some (.vStr newStr) =>
        if userTag ≠ oldStr ∧ newStr ≠ oldStr
        then changes ++ [⟨kv.1, userTag, oldStr, newStr, true⟩]
        else changes
      | _, _ => changes
    | _ => changes
  else changes

/-- DetectCustomImageTags from images.go. -/
def DetectCustomImageTags (userValues oldDefaults newDefaults : GoMap) : List ImageChange :=
  userValues.foldl (detectStep oldDefaults newDefaults) []

/-- Read a value in the reconstructed nested map along a list of parts,
unescaping each part as Unflatten does. -/
def treeGet (m : GoMap) : List (List Char) → Option GoVal
  | [] => none
  | [p] => lookupKV m (unescapeChars p)
  | p :: rest =>
    match lookupKV m (unescapeChars p) with
    | some (.vMap m2) => treeGet m2 rest
    | _ => none

/-- The property claimed of the entry order of Classify: sorted with
respect to the image of the paths under a given rendering. -/
def entriesSortedBy (f : List Char → List Char) (es : List ClassifiedValue) : Prop :=
  List.Pairwise (fun a b => lexLt (f b.Path) (f a.Path) = false) es

/-! ### Order lemmas for the lexicographic comparison -/

theorem lexLt_asymm : ∀ (a b : List Char), lexLt a b = true → lexLt b a = false := by
  intro a
  induction a with
  | nil => intro b; cases b <;> simp [lexLt]
  | cons x xs ih =>
    intro b
    cases b with
    | nil => simp [lexLt]
    | cons y ys =>
      simp only [lexLt]
      by_cases h1 : x < y
      · simp [h1, not_lt.mpr (le_of_lt h1)]
      · by_cases h2 : y < x
        · simp [h1, h2]
        · have hxy : x = y := le_antisymm (not_lt.mp h2) (not_lt.mp h1)
          subst hxy
          simp only [lt_irrefl, if_false]
          exact ih ys

theorem lexLt_conn : ∀ (a b : List Char), lexLt a b = false → lexLt b a = false → a = b := by
  intro a
  induction a with
  | nil => intro b; cases b <;> simp [lexLt]
  | cons x xs ih =>
    intro b
    cases b with
    | nil => simp [lexLt]
    | cons y ys =>
      simp only [lexLt]
      by_cases h1 : x < y
      · simp [h1]
      · by_cases h2 : y < x
        · simp [h1, h2]
        · have hxy : x = y := le_antisymm (not_lt.mp h2) (not_lt.mp h1)
          subst hxy
          simp only [lt_irrefl, if_false]
          intro ha hb
          rw [ih ys ha hb]

theorem lexLt_trans : ∀ (a b c : List Char),
    lexLt a b = true → lexLt b c = true → lexLt a c = true := by
  intro a
  induction a with
  | nil => intro b c; cases b <;> cases c <;> simp [lexLt]
  | cons x xs ih =>
    intro b c
    cases b with
    | nil => simp [lexLt]
    | cons y ys =>
      cases c with
      | nil => simp [lexLt]
      | cons z zs =>
        simp only [lexLt]
        by_cases h1 : x < y
        · by_cases h2 : y < z
          · simp [lt_trans h1 h2]
          · by_cases h3 : z < y
            · simp [h2, h3]
            · have hyz : y = z := le_antisymm (not_lt.mp h3) (not_lt.mp h2)
              subst hyz
              simp [h1]
        · by_cases h2 : y < x
          · simp [h1, h2]
          · have hxy : x = y := le_antisymm (not_lt.mp h2) (not_lt.mp h1)
            subst hxy
            simp only [lt_irrefl, if_false]
            by_cases h3 : x < z
            · simp [h3]
            · by_cases h4 : z < x
              · simp [h3, h4]
              · have hxz : x = z := le_antisymm (not_lt.mp h4) (not_lt.mp h3)
                subst hxz
                simp only [lt_irrefl, if_false]
                exact ih ys zs

/-! ### Association list lemmas -/

theorem perm_any_eq {α : Type} {l1 l2 : List α} (h : l1.Perm l2) (f : α → Bool) :
    l1.any f = l2.any f := by
  have hiff : l1.any f = true ↔ l2.any f = true := by
    simp only [List.any_eq_true]
    exact ⟨fun ⟨x, hx, hf⟩ => ⟨x, h.mem_iff.mp hx, hf⟩,
           fun ⟨x, hx, hf⟩ => ⟨x, h.mem_iff.mpr hx, hf⟩⟩
  cases hb : l2.any f
  · cases hb1 : l1.any f
    · rfl
    · exact absurd (hiff.mp hb1) (by simp [hb])
  · exact hiff.mpr hb

theorem lookupKV_mem {m : GoMap} {k : List Char} {v : GoVal}
    (h : lookupKV m k = some v) : (k, v) ∈ m := by
  induction m with
  | nil => simp [lookupKV] at h
  | cons kv rest ih =>
    obtain ⟨k1, v1⟩ := kv
    simp only [lookupKV] at h
    by_cases hk : k1 = k
    · subst hk
      rw [if_pos rfl] at h
      obtain rfl := Option.some.inj h
      exact List.mem_cons.mpr (Or.inl rfl)
    · rw [if_neg hk] at h
      exact List.mem_cons_of_mem _ (ih h)

theorem lookupKV_eq_none {m : GoMap} {k : List Char} :
    lookupKV m k = none ↔ k ∉ m.map Prod.fst := by
  induction m with
  | nil => simp [lookupKV]
  | cons kv rest ih =>
    obtain ⟨k1, v1⟩ := kv
    simp only [lookupKV, List.map_cons, List.mem_cons]
    by_cases hk : k1 = k
    · subst hk
      rw [if_pos rfl]
      constructor
      · intro h2; cases h2
      · intro h2; exact absurd (Or.inl rfl) h2
    · rw [if_neg hk, ih]
      constructor
      · intro h2 hor
        rcases hor with h3 | h3
        · exact hk h3.symm
        · exact h2 h3
      · intro h2 h3
        exact h2 (Or.inr h3)

theorem mem_lookupKV {m : GoMap} {k : List Char} {v : GoVal}
    (hn : (m.map Prod.fst).Nodup) (h : (k, v) ∈ m) : lookupKV m k = some v := by
  induction m with
  | nil => simp at h
  | cons kv rest ih =>
    obtain ⟨k1, v1⟩ := kv
    simp only [List.map_cons, List.nodup_cons] at hn
    rcases List.mem_cons.mp h with h1 | h1
    · rw [← h1]
      simp [lookupKV]
    · have hk : k1 ≠ k := by
        intro he
        subst he
        exact hn.1 (List.mem_map.mpr ⟨(k1, v), h1, rfl⟩)
      simp [lookupKV, hk]
      exact ih hn.2 h1

theorem lookupKV_perm {m n : GoMap} (hp : m.Perm n)
    (hn : (m.map Prod.fst).Nodup) (k : List Char) : lookupKV m k = lookupKV n k := by
  have hn2 : (n.map Prod.fst).Nodup := ((hp.map Prod.fst).nodup hn)
  cases hm : lookupKV m k with
  | none =>
    cases hm2 : lookupKV n k with
    | none => rfl
    | some v =>
      exact absurd (List.mem_map.mpr ⟨(k, v), hp.mem_iff.mpr (lookupKV_mem hm2), rfl⟩)
        (lookupKV_eq_none.mp hm)
  | some v =>
    exact (mem_lookupKV hn2 (hp.mem_iff.mp (lookupKV_mem hm))).symm

theorem lookupKV_insertKV_self (m : GoMap) (k : List Char) (v : GoVal) :
    lookupKV (insertKV m k v) k = some v := by
  induction m with
  | nil => simp [insertKV, lookupKV]
  | cons kv rest ih =>
    obtain ⟨k1, v1⟩ := kv
    by_cases hk : k1 = k
    · subst hk; simp [insertKV, lookupKV]
    · simp [insertKV, lookupKV, hk, ih]

theorem lookupKV_insertKV_ne (m : GoMap) {k k2 : List Char} (v : GoVal) (h : k2 ≠ k) :
    lookupKV (insertKV m k v) k2 = lookupKV m k2 := by
  induction m with
  | nil => simp [insertKV, lookupKV, Ne.symm h]
  | cons kv rest ih =>
    obtain ⟨k1, v1⟩ := kv
    by_cases hk : k1 = k
    · subst hk
      simp [insertKV, lookupKV, Ne.symm h]
    · simp [insertKV, lookupKV, hk, ih]

theorem insertKV_lookup_self {m : GoMap} {k : List Char} {v : GoVal}
    (h : lookupKV m k = some v) : insertKV m k v = m := by
  induction m with
  | nil => simp [lookupKV] at h
  | cons kv rest ih =>
    obtain ⟨k1, v1⟩ := kv
    simp only [lookupKV] at h
    by_cases hk : k1 = k
    · subst hk
      simp at h
      subst h
      simp [insertKV]
    · simp [hk] at h
      simp [insertKV, hk, ih h]

/-! ### Escape round-trip -/

theorem escape_head_ne (c : Char) (h : c ≠ ':') (l : List Char) :
    ∃ t, escapeChars (c :: l) = c :: t := by
  cases l with
  | nil => exact ⟨[], rfl⟩
  | cons c2 rest =>
    rw [escapeChars]
    rw [if_neg (by simp [h])]
    exact ⟨_, rfl⟩

theorem escape_not_sepsep : ∀ (l t : List Char), escapeChars l ≠ ':' :: ':' :: t := by
  intro l
  match l with
  | [] => intro t h; simp [escapeChars] at h
  | [c] => intro t h; simp [escapeChars] at h
  | c1 :: c2 :: rest =>
    intro t h
    rw [escapeChars] at h
    by_cases hsep : c1 = ':' ∧ c2 = ':'
    · rw [if_pos hsep] at h
      simp at h
    · rw [if_neg hsep] at h
      have hc1 : c1 = ':' := (List.cons.injEq _ _ _ _ ▸ h).1
      have hc2 : c2 ≠ ':' := fun he => hsep ⟨hc1, he⟩
      obtain ⟨t2, ht2⟩ := escape_head_ne c2 hc2 rest
      rw [ht2] at h
      have := (List.cons.injEq _ _ _ _ ▸ h).2
      have hc2' : c2 = ':' := (List.cons.injEq _ _ _ _ ▸ this).1
      exact hc2 hc2'

theorem unescape_cons_ne (c : Char) (h : c ≠ '\\') (l : List Char) :
    unescapeChars (c :: l) = c :: unescapeChars l := by
  match l with
  | [] => rfl
  | [c2] => rfl
  | c2 :: c3 :: rest =>
    rw [unescapeChars]
    rw [if_neg (by simp [h])]

theorem unescape_cons_backslash (E : List Char) (h : ∀ t, E ≠ ':' :: ':' :: t) :
    unescapeChars ('\\' :: E) = '\\' :: unescapeChars E := by
  match E with
  | [] => rfl
  | [e] => rfl
  | e1 :: e2 :: rest =>
    rw [unescapeChars]
    rw [if_neg ?_]
    intro ⟨_, h2, h3⟩
    exact h rest (by rw [h2, h3])

theorem unescape_escape (l : List Char) : unescapeChars (escapeChars l) = l := by
  induction l using escapeChars.induct with
  | case1 => rfl
  | case2 c => rfl
  | case3 c1 c2 rest hsep ih =>
    obtain ⟨h1, h2⟩ := hsep
    subst h1; subst h2
    rw [escapeChars, if_pos ⟨rfl, rfl⟩]
    rw [unescapeChars, if_pos ⟨rfl, rfl, rfl⟩]
    rw [ih]
  | case4 c1 c2 rest hsep ih =>
    rw [escapeChars, if_neg hsep]
    by_cases hb : c1 = '\\'
    · subst hb
      rw [unescape_cons_backslash _ (fun t => escape_not_sepsep (c2 :: rest) t)]
      rw [ih]
    · rw [unescape_cons_ne c1 hb]
      rw [ih]

/-- Claim C5: for every raw key segment, including segments containing
the internal separator, unescapeKeyDots after escapeKeyDots is the
identity. -/
theorem unescapeKeyDots_escapeKeyDots (key : String) :
    unescapeKeyDots (escapeKeyDots key) = key := by
  show String.mk (unescapeChars (escapeChars key.data)) = key
  rw [unescape_escape]

/-! ### Flatten and Unflatten on a key containing the separator -/

/-- Claim C1: the round-trip fails on the tree with the single key
a::b, which contains the internal separator.  Flatten escapes the key,
but Unflatten splits the escaped key on the separator without honoring
the escape, so the reconstructed tree nests a backslash-suffixed key
instead of restoring the original key. -/
theorem unflatten_flatten_separator_key :
    Unflatten (Flatten [("a::b".data, GoVal.vStr "x")])
      = [("a\\".data, GoVal.vMap [("b".data, GoVal.vStr "x")])] ∧
    lookupKV (Unflatten (Flatten [("a::b".data, GoVal.vStr "x")])) "a::b".data = none ∧
    lookupKV [("a::b".data, GoVal.vStr "x")] "a::b".data = some (GoVal.vStr "x") := by
  refine ⟨by decide, by decide, by decide⟩

/-! ### Structure of the Classify result -/

/-- Boolean test of an entry's classification. -/
def hasClass (c : Classification) (e : ClassifiedValue) : Bool :=
  decide (e.Classification = c)

/-- The entry generated for one user binding. -/
def genEntry (d : GoMap) (kv : List Char × GoVal) : ClassifiedValue :=
  classifyEntry kv.1 kv.2 d

theorem classifyEntry_path (p : List Char) (v : GoVal) (d : GoMap) :
    (classifyEntry p v d).Path = p := by
  rw [classifyEntry]
  rcases lookupKV d p with _ | w
  · simp only []
    split <;> first | rfl | (split <;> rfl)
  · simp only []
    split <;> rfl

theorem classify_foldl (d : GoMap) :
    ∀ (user : List (List Char × GoVal)) (acc : ClassificationResult),
    List.foldl (classifyStep d) acc user =
      { Entries := acc.Entries ++ user.map (genEntry d)
        Customized := acc.Customized + (user.map (genEntry d)).countP (hasClass .customized)
        CopiedDefault :=
          acc.CopiedDefault + (user.map (genEntry d)).countP (hasClass .copiedDefault)
        Unknown := acc.Unknown + (user.map (genEntry d)).countP (hasClass .unknown)
        Total := acc.Total + user.length }
  | [], acc => by simp
  | kv :: rest, acc => by
    rw [List.foldl_cons, classify_foldl d rest]
    simp only [classifyStep, List.map_cons, List.countP_cons, List.length_cons, genEntry,
      hasClass, decide_eq_true_eq]
    simp only [ClassificationResult.mk.injEq]
    refine ⟨by simp, by ring, by ring, by ring, by ring⟩

theorem Classify_eq (u d : GoMap) :
    Classify u d =
      { Entries := sortEntries (u.map (genEntry d))
        Customized := (u.map (genEntry d)).countP (hasClass .customized)
        CopiedDefault := (u.map (genEntry d)).countP (hasClass .copiedDefault)
        Unknown := (u.map (genEntry d)).countP (hasClass .unknown)
        Total := u.length } := by
  simp only [Classify]
  rw [classify_foldl]
  simp

theorem insSortedEntry_perm (e : ClassifiedValue) (l : List ClassifiedValue) :
    (insSortedEntry e l).Perm (e :: l) := by
  induction l with
  | nil => exact List.Perm.refl _
  | cons b bs ih =>
    rw [insSortedEntry]
    cases hcond : lexLt e.Path b.Path
    · simp only [Bool.false_eq_true, if_false]
      exact (ih.cons b).trans (List.Perm.swap e b bs)
    · simp only [if_true]
      exact List.Perm.refl _

theorem sortEntries_perm (l : List ClassifiedValue) : (sortEntries l).Perm l := by
  induction l with
  | nil => exact List.Perm.refl _
  | cons e es ih =>
    exact (insSortedEntry_perm e (sortEntries es)).trans (ih.cons e)

theorem insSortedEntry_sorted (e : ClassifiedValue) (l : List ClassifiedValue)
    (hl : List.Pairwise (fun a b => lexLt b.Path a.Path = false) l) :
    List.Pairwise (fun a b => lexLt b.Path a.Path = false) (insSortedEntry e l) := by
  induction l with
  | nil => simp [insSortedEntry]
  | cons b bs ih =>
    rw [insSortedEntry]
    rcases List.pairwise_cons.mp hl with ⟨hb, hbs⟩
    cases hcond : lexLt e.Path b.Path
    · simp only [Bool.false_eq_true, if_false]
      refine List.pairwise_cons.mpr ⟨?_, ih hbs⟩
      intro x hx
      rcases List.mem_cons.mp ((insSortedEntry_perm e bs).mem_iff.mp hx) with rfl | hx2
      · exact hcond
      · exact hb x hx2
    · simp only [if_true]
      refine List.pairwise_cons.mpr ⟨?_, hl⟩
      intro x hx
      rcases List.mem_cons.mp hx with rfl | hx2
      · exact lexLt_asymm _ _ hcond
      · cases hxe : lexLt x.Path e.Path
        · rfl
        · exact absurd (lexLt_trans _ _ _ hxe hcond) (by rw [hb x hx2]; simp)

theorem sortEntries_sorted (l : List ClassifiedValue) :
    List.Pairwise (fun a b => lexLt b.Path a.Path = false) (sortEntries l) := by
  induction l with
  | nil => simp [sortEntries]
  | cons e es ih => exact insSortedEntry_sorted e (sortEntries es) ih

theorem sorted_perm_eq : ∀ {l1 l2 : List ClassifiedValue},
    l1.Perm l2 →
    List.Pairwise (fun a b => lexLt b.Path a.Path = false) l1 →
    List.Pairwise (fun a b => lexLt b.Path a.Path = false) l2 →
    (l1.map ClassifiedValue.Path).Nodup →
    l1 = l2
  | [], l2, hp, _, _, _ => hp.nil_eq
  | a :: t1, [], hp, _, _, _ => absurd hp.symm.nil_eq (by simp)
  | a :: t1, b :: t2, hp, h1, h2, hn => by
    rcases List.pairwise_cons.mp h1 with ⟨ha1, ht1⟩
    rcases List.pairwise_cons.mp h2 with ⟨hb2, ht2⟩
    simp only [List.map_cons, List.nodup_cons] at hn
    have hab : a = b := by
      by_contra hne
      have haIn : a ∈ t2 := by
        rcases List.mem_cons.mp (hp.mem_iff.mp (List.mem_cons_self a t1)) with h | h
        · exact absurd h hne
        · exact h
      have hbIn : b ∈ t1 := by
        rcases List.mem_cons.mp (hp.mem_iff.mpr (List.mem_cons_self b t2)) with h | h
        · exact absurd h.symm hne
        · exact h
      have hpeq : a.Path = b.Path := lexLt_conn _ _ (hb2 a haIn) (ha1 b hbIn)
      exact hn.1 (hpeq ▸ List.mem_map.mpr ⟨b, hbIn, rfl⟩)
    subst hab
    have htp : t1.Perm t2 := hp.cons_inv
    rw [sorted_perm_eq htp ht1 ht2 hn.2]

theorem class_count_sum (es : List ClassifiedValue) :
    es.countP (hasClass .customized) + es.countP (hasClass .copiedDefault)
      + es.countP (hasClass .unknown) = es.length := by
  induction es with
  | nil => simp
  | cons e rest ih =>
    simp only [List.countP_cons, List.length_cons]
    cases hc : e.Classification <;> simp [hasClass, hc] <;> omega

/-- Claim C10: for every pair of inputs, the counts of the result of
Classify sum to the total, the total is the number of entries, which is
the number of user bindings, and each counter counts the entries with
the matching classification. -/
theorem classify_counts_invariant (user baseline : GoMap) :
    (Classify user baseline).Customized + (Classify user baseline).CopiedDefault
        + (Classify user baseline).Unknown = (Classify user baseline).Total ∧
    (Classify user baseline).Total = (Classify user baseline).Entries.length ∧
    (Classify user baseline).Total = user.length ∧
    (Classify user baseline).Customized
      = (Classify user baseline).Entries.countP (hasClass .customized) ∧
    (Classify user baseline).CopiedDefault
      = (Classify user baseline).Entries.countP (hasClass .copiedDefault) ∧
    (Classify user baseline).Unknown
      = (Classify user baseline).Entries.countP (hasClass .unknown) := by
  rw [Classify_eq]
  dsimp only
  refine ⟨?_, ?_, ?_, ?_, ?_, ?_⟩
  · rw [class_count_sum, List.length_map]
  · rw [(sortEntries_perm _).length_eq, List.length_map]
  · rfl
  · exact ((sortEntries_perm _).countP_eq _).symm
  · exact ((sortEntries_perm _).countP_eq _).symm
  · exact ((sortEntries_perm _).countP_eq _).symm

theorem classifyEntry_copied {p : List Char} {v w : GoVal} {d : GoMap}
    (hl : lookupKV d p = some w) (he : ValuesEqual v w = true) :
    (classifyEntry p v d).Classification = Classification.copiedDefault := by
  rw [classifyEntry, hl]
  simp only [he, if_true]

/-- Claim C7: if every user binding also occurs in the baseline with a
deep-equal value, then Classify reports zero unknown and zero
customized entries. -/
theorem classify_exact_match (user baseline : GoMap)
    (h : ∀ kv ∈ user, ∃ w, lookupKV baseline kv.1 = some w ∧ ValuesEqual kv.2 w = true) :
    (Classify user baseline).Unknown = 0 ∧ (Classify user baseline).Customized = 0 := by
  rw [Classify_eq]
  constructor <;>
    · show List.countP _ _ = 0
      rw [List.countP_eq_zero]
      intro e he
      rcases List.mem_map.mp he with ⟨kv, hkv, rfl⟩
      obtain ⟨w, hl, hv⟩ := h kv hkv
      simp [hasClass, genEntry, classifyEntry_copied hl hv]

/-- Witness for claim C7 at a concrete exact-match input. -/
theorem classify_exact_match_witness :
    (Classify [("k".data, GoVal.vStr "v")] [("k".data, GoVal.vStr "v")]).Unknown = 0 ∧
    (Classify [("k".data, GoVal.vStr "v")] [("k".data, GoVal.vStr "v")]).Customized = 0 :=
  classify_exact_match _ _ (fun kv hkv => by
    rcases List.mem_singleton.mp hkv with rfl
    exact ⟨GoVal.vStr "v", rfl, rfl⟩)

/-! ### Ancestor scans -/

theorem joinSep_ne_nil_of_two (l : List (List Char)) (h : 2 ≤ l.length) :
    joinSep l ≠ [] := by
  match l with
  | [] => simp at h
  | [p] => simp at h
  | p :: q :: ps =>
    have he : joinSep (p :: q :: ps) = p ++ ':' :: ':' :: joinSep (q :: ps) := rfl
    rw [he]
    simp

theorem findPEMAux_ne_nil (parts : List (List Char)) (defaults : GoMap) :
    ∀ n, (∃ i, 1 ≤ i ∧ i ≤ n ∧
        lookupKV defaults (joinSep (parts.take i)) = some (.vMap []) ∧
        joinSep (parts.take i) ≠ []) →
    findPEMAux parts defaults n ≠ []
  | 0 => by rintro ⟨i, h1, h2, _⟩; omega
  | n + 1 => by
    rintro ⟨i, h1, h2, hl, hne⟩
    rw [findPEMAux]
    split
    · next hm =>
      by_cases hlen : 2 ≤ (parts.take (n + 1)).length
      · exact joinSep_ne_nil_of_two _ hlen
      · have h3 : (parts.take (n + 1)).length = min (n + 1) parts.length :=
          List.length_take _ _
        have h4 : parts.take i = parts.take (n + 1) := by
          rcases le_or_lt parts.length 1 with hp | hp
          · rw [List.take_of_length_le (by omega), List.take_of_length_le (by omega)]
          · have : i = n + 1 := by omega
            rw [this]
          
        rw [← h4]
        exact hne
    · next hm =>
      apply findPEMAux_ne_nil parts defaults n
      refine ⟨i, h1, ?_, hl, hne⟩
      rcases Nat.lt_or_ge i (n + 1) with hlt | hge
      · omega
      · have hieq : i = n + 1 := by omega
        subst hieq
        exact absurd hl hm

/-- Claim C8 (amended): a user path absent from the baseline, one of
whose proper ancestors joins to a nonempty internal key that the
baseline binds to an empty map, is classified Customized.  The
nonemptiness proviso is needed because findParentEmptyMap signals
failure with the empty string, so an empty-container binding at the
empty-string ancestor key is not recognized. -/
theorem classify_parent_empty_map_customized
    (user baseline : GoMap) (p : List Char)
    (hnone : lookupKV baseline p = none)
    (hanc : ∃ i, 1 ≤ i ∧ i < (splitSep p).length ∧
        joinSep ((splitSep p).take i) ≠ [] ∧
        lookupKV baseline (joinSep ((splitSep p).take i)) = some (.vMap [])) :
    ∀ e ∈ (Classify user baseline).Entries, e.Path = p →
      e.Classification = Classification.customized := by
  intro e he hpe
  rw [Classify_eq] at he
  have he2 := (sortEntries_perm _).mem_iff.mp he
  rcases List.mem_map.mp he2 with ⟨kv, hkv, rfl⟩
  rw [genEntry] at hpe ⊢
  rw [classifyEntry_path] at hpe
  subst hpe
  rw [classifyEntry, hnone]
  have hfind : findParentEmptyMap kv.1 baseline ≠ [] := by
    rw [findParentEmptyMap]
    apply findPEMAux_ne_nil
    obtain ⟨i, h1, h2, hne, hl⟩ := hanc
    exact ⟨i, h1, by omega, hl, hne⟩
  rw [if_pos hfind]

/-- Claim C8 counterexample to the unamended statement: the baseline
binds the empty-string key to an empty map, which is a proper ancestor
of the user path, yet the entry is classified Unknown because the
empty-string result is indistinguishable from the not-found signal. -/
theorem classify_parent_empty_string_unknown :
    lookupKV [("".data, GoVal.vMap [])] "::b".data = none ∧
    1 < (splitSep "::b".data).length ∧
    lookupKV [("".data, GoVal.vMap [])] (joinSep ((splitSep "::b".data).take 1))
      = some (GoVal.vMap []) ∧
    (Classify [("::b".data, GoVal.vStr "x")] [("".data, GoVal.vMap [])]).Entries.map
        (fun e => (e.Path, e.Classification)) = [("::b".data, Classification.unknown)] :=
  ⟨by decide, by decide, by decide, by decide⟩

/-- Witness for claim C8 at the concrete instance of the claim: the
baseline is the flattening of a tree with an empty map at key a, and
the user binds the path a::b. -/
theorem classify_parent_empty_map_witness :
    (genEntry (Flatten [("a".data, GoVal.vMap [])])
        ("a::b".data, GoVal.vStr "x")).Classification = Classification.customized :=
  classify_parent_empty_map_customized
    [("a::b".data, GoVal.vStr "x")] (Flatten [("a".data, GoVal.vMap [])]) "a::b".data
    (by decide)
    ⟨1, by decide, by decide, by decide, by decide⟩
    _ (by rw [Classify_eq]; exact (sortEntries_perm _).mem_iff.mpr (by decide))
    (by decide)

theorem findPEMAux_congr (parts : List (List Char)) {d1 d2 : GoMap}
    (hl : ∀ k, lookupKV d1 k = lookupKV d2 k) :
    ∀ n, findPEMAux parts d1 n = findPEMAux parts d2 n
  | 0 => rfl
  | n + 1 => by
    have ih := findPEMAux_congr parts hl n
    rw [findPEMAux, findPEMAux, hl]
    cases hx : lookupKV d2 (joinSep (parts.take (n + 1))) with
    | none => exact ih
    | some w =>
      cases w with
      | vMap m =>
        cases m with
        | nil => rfl
        | cons x xs => exact ih
      | vNull => exact ih
      | vBool b => exact ih
      | vInt n2 => exact ih
      | vStr s => exact ih
      | vSeq xs => exact ih

theorem findPWCAux_congr (parts : List (List Char)) {d1 d2 : GoMap}
    (hany : ∀ f, d1.any f = d2.any f) :
    ∀ n, findPWCAux parts d1 n = findPWCAux parts d2 n
  | 0 => rfl
  | n + 1 => by
    rw [findPWCAux, findPWCAux, hany, findPWCAux_congr parts hany n]

theorem classifyEntry_congr (p : List Char) (v : GoVal) {d1 d2 : GoMap}
    (hp : d1.Perm d2) (hnd : (d1.map Prod.fst).Nodup) :
    classifyEntry p v d1 = classifyEntry p v d2 := by
  have hl : ∀ k, lookupKV d1 k = lookupKV d2 k := lookupKV_perm hp hnd
  have hpem : findParentEmptyMap p d1 = findParentEmptyMap p d2 := by
    rw [findParentEmptyMap, findParentEmptyMap]
    exact findPEMAux_congr _ hl _
  have hpwc : findParentWithChildren p d1 = findParentWithChildren p d2 := by
    rw [findParentWithChildren, findParentWithChildren]
    exact findPWCAux_congr _ (fun f => perm_any_eq hp f) _
  rw [classifyEntry, classifyEntry, hl]
  cases lookupKV d2 p with
  | some w => rfl
  | none => rw [hpem, hpwc]

theorem map_path_gen (u : GoMap) (d : GoMap) :
    (u.map (genEntry d)).map ClassifiedValue.Path = u.map Prod.fst := by
  induction u with
  | nil => rfl
  | cons kv rest ih =>
    simp only [List.map_cons, ih, genEntry, classifyEntry_path]

/-- Claim C2 counterexample: on the user document with internal keys
a0 and a::z and the empty baseline, Classify returns the entries in the
order a0, a::z, sorted by the internal path string; in display form
these render as a0 and a.z, and a.z sorts strictly before a0, so the
entry list is not sorted by the display-form string. -/
theorem classify_entries_not_sorted_by_display :
    ¬ entriesSortedBy displayChars
        ((Classify [("a0".data, GoVal.vStr "y"), ("a::z".data, GoVal.vStr "x")] []).Entries) := by
  intro h
  rw [entriesSortedBy] at h
  have := (List.pairwise_cons.mp (show List.Pairwise _ _ by
    rw [show (Classify [("a0".data, GoVal.vStr "y"), ("a::z".data, GoVal.vStr "x")] []).Entries
        = [⟨"a0".data, GoVal.vStr "y", GoVal.vNull, .unknown⟩,
           ⟨"a::z".data, GoVal.vStr "x", GoVal.vNull, .unknown⟩] from by decide] at h
    exact h)).1
  have h2 := this _ (List.mem_singleton.mpr rfl)
  revert h2
  decide

/-- Claim C2 (amended): Classify is total and deterministic, its output
is invariant under reordering of both input maps, and its entry list is
sorted by the internal path string (separator form), though not by the
display-form string. -/
theorem classify_deterministic_sorted
    (u1 u2 d1 d2 : GoMap) (hu : u1.Perm u2) (hd : d1.Perm d2)
    (hnu : (u1.map Prod.fst).Nodup) (hnd : (d1.map Prod.fst).Nodup) :
    Classify u1 d1 = Classify u2 d2 ∧
    entriesSortedBy (fun s => s) (Classify u1 d1).Entries := by
  have hmapeq : u1.map (genEntry d1) = u1.map (genEntry d2) :=
    List.map_congr_left (fun kv _ => classifyEntry_congr kv.1 kv.2 hd hnd)
  have hmperm : (u1.map (genEntry d2)).Perm (u2.map (genEntry d2)) := hu.map _
  constructor
  · rw [Classify_eq, Classify_eq, hmapeq]
    have hnodup : ((sortEntries (u1.map (genEntry d2))).map ClassifiedValue.Path).Nodup := by
      refine (((sortEntries_perm _).map ClassifiedValue.Path).symm).nodup ?_
      rw [map_path_gen]
      exact hnu
    have hentries : sortEntries (u1.map (genEntry d2)) = sortEntries (u2.map (genEntry d2)) :=
      sorted_perm_eq
        ((sortEntries_perm _).trans (hmperm.trans (sortEntries_perm _).symm))
        (sortEntries_sorted _) (sortEntries_sorted _) hnodup
    rw [hentries, hmperm.countP_eq, hmperm.countP_eq, hmperm.countP_eq, hu.length_eq]
  · rw [Classify_eq]
    exact sortEntries_sorted _

/-- Witness for claim C2: two orderings of a two-binding user map and
of a two-binding baseline yield the same result, and the entries are
sorted by the internal path. -/
theorem classify_deterministic_sorted_witness :
    Classify [("b".data, GoVal.vInt 1), ("a".data, GoVal.vInt 2)]
        [("a".data, GoVal.vInt 2), ("z".data, GoVal.vInt 3)]
      = Classify [("a".data, GoVal.vInt 2), ("b".data, GoVal.vInt 1)]
        [("z".data, GoVal.vInt 3), ("a".data, GoVal.vInt 2)] ∧
    entriesSortedBy (fun s => s)
      (Classify [("b".data, GoVal.vInt 1), ("a".data, GoVal.vInt 2)]
        [("a".data, GoVal.vInt 2), ("z".data, GoVal.vInt 3)]).Entries :=
  classify_deterministic_sorted _ _ _ _ (by decide) (by decide) (by decide) (by decide)

/-! ### Merge lemmas -/

theorem merge_base_lookup_none (cps : List (List Char)) (q : List Char)
    (hq : isUnderCustomizedParent q cps = true) :
    ∀ (new : GoMap) (init : GoMap), lookupKV init q = none →
      lookupKV (new.foldl (mergeBaseStep cps) init) q = none := by
  intro new
  induction new with
  | nil => intro init hinit; exact hinit
  | cons a rest ih =>
    intro init hinit
    rw [List.foldl_cons]
    apply ih
    rw [mergeBaseStep]
    by_cases hk : a.1 = q
    · rw [hk, hq]
      simp only [if_true]
      exact hinit
    · split
      · exact hinit
      · rw [lookupKV_insertKV_ne _ _ (fun he => hk he.symm)]
        exact hinit

theorem merge_base_lookup (cps : List (List Char)) (q : List Char)
    (hq : isUnderCustomizedParent q cps = false) :
    ∀ (new : GoMap) (init : GoMap), (new.map Prod.fst).Nodup →
      (lookupKV new q).isSome = false → lookupKV (new.foldl (mergeBaseStep cps) init) q = lookupKV init q := by
  intro new
  induction new with
  | nil => intro init _ _; rfl
  | cons a rest ih =>
    intro init hnd habs
    rw [List.foldl_cons]
    simp only [List.map_cons, List.nodup_cons] at hnd
    by_cases hk : a.1 = q
    · exfalso
      rw [lookupKV] at habs
      obtain ⟨k1, v1⟩ := a
      simp only at hk
      rw [if_pos hk] at habs
      simp at habs
    · rw [lookupKV] at habs
      obtain ⟨k1, v1⟩ := a
      simp only at hk
      rw [if_neg hk] at habs
      rw [ih _ hnd.2 habs]
      rw [mergeBaseStep]
      split
      · rfl
      · exact lookupKV_insertKV_ne _ _ (fun he => hk he.symm)

theorem merge_base_lookup_some (cps : List (List Char)) (q : List Char) (w : GoVal)
    (hq : isUnderCustomizedParent q cps = false) :
    ∀ (new : GoMap) (init : GoMap), (new.map Prod.fst).Nodup →
      lookupKV new q = some w → lookupKV (new.foldl (mergeBaseStep cps) init) q = some w := by
  intro new
  induction new with
  | nil => intro init _ h; cases h
  | cons a rest ih =>
    intro init hnd hsome
    rw [List.foldl_cons]
    simp only [List.map_cons, List.nodup_cons] at hnd
    obtain ⟨k1, v1⟩ := a
    rw [lookupKV] at hsome
    by_cases hk : k1 = q
    · rw [if_pos hk] at hsome
      obtain rfl := Option.some.inj hsome
      have habs : (lookupKV rest q).isSome = false := by
        cases hr : lookupKV rest q with
        | none => rfl
        | some z =>
          exfalso
          apply hnd.1
          show k1 ∈ List.map Prod.fst rest
          rw [hk]
          exact List.mem_map.mpr ⟨(q, z), lookupKV_mem hr, rfl⟩
      rw [merge_base_lookup cps q hq rest _ hnd.2 habs]
      rw [mergeBaseStep]
      simp only [hk, hq, Bool.false_eq_true, if_false]
      exact lookupKV_insertKV_self _ _ _
    · rw [if_neg hk] at hsome
      exact ih _ hnd.2 hsome

theorem merge_overlay_preserve (old : GoMap) (q : List Char) :
    ∀ (user : GoMap) (init : GoMap),
      (∀ w, (q, w) ∈ user → ∃ ov, lookupKV old q = some ov ∧ ValuesEqual w ov = true) →
      lookupKV (user.foldl (mergeOverlayStep old) init) q = lookupKV init q := by
  intro user
  induction user with
  | nil => intro init _; rfl
  | cons a rest ih =>
    intro init hq
    rw [List.foldl_cons]
    rw [ih _ (fun w hw => hq w (List.mem_cons_of_mem _ hw))]
    rw [mergeOverlayStep]
    obtain ⟨k1, v1⟩ := a
    by_cases hk : k1 = q
    · subst hk
      obtain ⟨ov, hov, hve⟩ := hq v1 (List.mem_cons_self _ _)
      rw [hov]
      simp only [hve, if_true]
    · cases lookupKV old k1 with
      | some ov =>
        simp only
        split
        · rfl
        · exact lookupKV_insertKV_ne _ _ (fun he => hk he.symm)
      | none =>
        exact lookupKV_insertKV_ne _ _ (fun he => hk he.symm)

theorem merge_overlay_mem (old : GoMap) (q : List Char) (v : GoVal)
    (hcust : lookupKV old q = none ∨ ∃ ov, lookupKV old q = some ov ∧ ValuesEqual v ov = false) :
    ∀ (user : GoMap) (init : GoMap), (user.map Prod.fst).Nodup → (q, v) ∈ user →
      lookupKV (user.foldl (mergeOverlayStep old) init) q = some v := by
  intro user
  induction user with
  | nil => intro init _ h; cases h
  | cons a rest ih =>
    intro init hnd hmem
    rw [List.foldl_cons]
    simp only [List.map_cons, List.nodup_cons] at hnd
    rcases List.mem_cons.mp hmem with rfl | hm2
    · have hrest : ∀ w, (q, w) ∈ rest → False := by
        intro w hw
        exact hnd.1 (List.mem_map.mpr ⟨(q, w), hw, rfl⟩)
      rw [merge_overlay_preserve old q rest _ (fun w hw => absurd hw (hrest w))]
      rw [mergeOverlayStep]
      rcases hcust with hnone | ⟨ov, hov, hve⟩
      · rw [hnone]
        exact lookupKV_insertKV_self _ _ _
      · rw [hov]
        simp only [hve, Bool.false_eq_true, if_false]
        exact lookupKV_insertKV_self _ _ _
    · have hk : a.1 ≠ q := by
        intro he
        exact hnd.1 (he ▸ List.mem_map.mpr ⟨(q, v), hm2, rfl⟩)
      exact ih _ hnd.2 hm2

theorem mark_super (o : GoMap) (acc : List (List Char)) (kv : List Char × GoVal)
    (x : List Char) (hx : x ∈ acc) : x ∈ markCustomizedParent o acc kv := by
  simp only [markCustomizedParent]
  split
  · exact hx
  · split
    · exact hx
    · split
      · exact hx
      · split
        · exact List.mem_cons_of_mem _ hx
        · exact hx

theorem foldl_mark_mono (o : GoMap) :
    ∀ (u : GoMap) (acc : List (List Char)) (x : List Char), x ∈ acc →
      x ∈ u.foldl (markCustomizedParent o) acc := by
  intro u
  induction u with
  | nil => intro acc x hx; exact hx
  | cons a rest ih =>
    intro acc x hx
    rw [List.foldl_cons]
    exact ih _ x (mark_super o acc a x hx)

theorem mark_hits (o : GoMap) (acc : List (List Char)) (kv : List Char × GoVal)
    (h1 : lookupKV o kv.1 = none)
    (h2 : ¬ (splitSep kv.1).length < 2)
    (h3 : lookupKV o (joinSep ((splitSep kv.1).take ((splitSep kv.1).length - 1)))
        = some (GoVal.vMap []) → False)
    (h4 : o.any (fun okv =>
        ((joinSep ((splitSep kv.1).take ((splitSep kv.1).length - 1))) ++ ':' :: ':' :: []).isPrefixOf okv.1
          && okv.1 ≠ kv.1) = true) :
    markCustomizedParent o acc kv
      = joinSep ((splitSep kv.1).take ((splitSep kv.1).length - 1)) :: acc := by
  simp only [markCustomizedParent, h1]
  simp only [Option.isSome_none, Bool.false_eq_true, if_false]
  rw [if_neg h2]
  cases hx : lookupKV o (joinSep ((splitSep kv.1).take ((splitSep kv.1).length - 1))) with
  | none => simp only [hx, h4, if_true]
  | some w =>
    cases w with
    | vMap m =>
      cases m with
      | nil => exact absurd hx h3
      | cons y ys => simp only [hx, h4, if_true]
    | vNull => simp only [hx, h4, if_true]
    | vBool b => simp only [hx, h4, if_true]
    | vInt n => simp only [hx, h4, if_true]
    | vStr s => simp only [hx, h4, if_true]
    | vSeq xs => simp only [hx, h4, if_true]

theorem mem_findCustomizedParentMaps (o : GoMap) (kv : List Char × GoVal)
    (h1 : lookupKV o kv.1 = none)
    (h2 : ¬ (splitSep kv.1).length < 2)
    (h3 : lookupKV o (joinSep ((splitSep kv.1).take ((splitSep kv.1).length - 1)))
        = some (GoVal.vMap []) → False)
    (h4 : o.any (fun okv =>
        ((joinSep ((splitSep kv.1).take ((splitSep kv.1).length - 1))) ++ ':' :: ':' :: []).isPrefixOf okv.1
          && okv.1 ≠ kv.1) = true) :
    ∀ (u : GoMap) (acc : List (List Char)), kv ∈ u →
      joinSep ((splitSep kv.1).take ((splitSep kv.1).length - 1))
        ∈ u.foldl (markCustomizedParent o) acc := by
  intro u
  induction u with
  | nil => intro acc h; cases h
  | cons a rest ih =>
    intro acc hmem
    rw [List.foldl_cons]
    rcases List.mem_cons.mp hmem with rfl | hm2
    · apply foldl_mark_mono
      rw [mark_hits o acc kv h1 h2 h3 h4]
      exact List.mem_cons_self _ _
    · exact ih _ hm2

theorem isUnderAux_true (parts : List (List Char)) (cps : List (List Char)) :
    ∀ (n i : Nat), 1 ≤ i → i ≤ n → joinSep (parts.take i) ∈ cps →
      isUnderAux parts cps n = true
  | 0, i => by intro h1 h2 _; omega
  | n + 1, i => by
    intro h1 h2 hmem
    rw [isUnderAux]
    by_cases hc : joinSep (parts.take (n + 1)) ∈ cps
    · rw [if_pos hc]
    · rw [if_neg hc]
      have hin : i ≤ n := by
        rcases Nat.lt_or_ge i (n + 1) with h | h
        · omega
        · exfalso
          have : i = n + 1 := by omega
          subst this
          exact hc hmem
      exact isUnderAux_true parts cps n i h1 hin hmem

/-- Claim C3 counterexample to the statement over arbitrary proper
ancestors: the user path a::b::c is absent from the old baseline and
the Classifier ancestor-with-other-children rule applies to it with
ancestor a (the old baseline has a::x under a), the new baseline path
a::x falls under that ancestor and is not re-inserted by the user
overlay, yet it is present in the merge result, because Merge only
marks the immediate parent a::b, under which the old baseline has no
other children. -/
theorem merge_ancestor_rule_counterexample :
    findParentWithChildren "a::b::c".data [("a::x".data, GoVal.vInt 1)] = "a".data ∧
    lookupKV [("a::x".data, GoVal.vInt 1)] "a::b::c".data = none ∧
    ("a".data ++ ':' :: ':' :: []).isPrefixOf "a::x".data = true ∧
    lookupKV [("a::b::c".data, GoVal.vStr "u")] "a::x".data = none ∧
    lookupKV (Merge [("a::b::c".data, GoVal.vStr "u")] [("a::x".data, GoVal.vInt 1)]
        [("a::x".data, GoVal.vInt 2)]) "a::x".data = some (GoVal.vInt 2) :=
  ⟨by decide, by decide, by decide, by decide, by decide⟩

/-- Claim C3 (amended): the suppression applies to the immediate parent
only.  If some user binding has a path absent from the old baseline
with at least two segments, whose immediate parent is not an
empty-container marker of the old baseline, and some other old-baseline
path lies strictly under that immediate parent, then every path that
falls under that immediate parent is absent from the merge result
unless the user overlay re-inserts it. -/
theorem merge_suppresses_under_immediate_parent
    (user old new : GoMap) (kv : List Char × GoVal) (hkv : kv ∈ user)
    (h1 : lookupKV old kv.1 = none)
    (h2 : ¬ (splitSep kv.1).length < 2)
    (h3 : lookupKV old (joinSep ((splitSep kv.1).take ((splitSep kv.1).length - 1)))
        = some (GoVal.vMap []) → False)
    (h4 : old.any (fun okv =>
        ((joinSep ((splitSep kv.1).take ((splitSep kv.1).length - 1))) ++ ':' :: ':' :: []).isPrefixOf okv.1
          && okv.1 ≠ kv.1) = true)
    (q : List Char)
    (hq : ∃ i, 1 ≤ i ∧ i ≤ (splitSep q).length - 1 ∧
        joinSep ((splitSep q).take i)
          = joinSep ((splitSep kv.1).take ((splitSep kv.1).length - 1)))
    (hqu : ∀ w, (q, w) ∈ user → ∃ ov, lookupKV old q = some ov ∧ ValuesEqual w ov = true) :
    lookupKV (Merge user old new) q = none := by
  simp only [Merge]
  rw [merge_overlay_preserve old q user _ hqu]
  apply merge_base_lookup_none
  · rw [isUnderCustomizedParent]
    obtain ⟨i, hi1, hi2, hieq⟩ := hq
    apply isUnderAux_true _ _ _ i hi1 hi2
    rw [hieq]
    exact mem_findCustomizedParentMaps old kv h1 h2 h3 h4 user [] hkv
  · rfl

/-- Witness for claim C3 at a concrete immediate-parent scenario: the
user adds a::b::c under a::b, whose old default children are a::b::z
only, so a::b is marked and the new default a::b::z is suppressed. -/
theorem merge_suppresses_witness :
    lookupKV (Merge [("a::b::c".data, GoVal.vStr "u")] [("a::b::z".data, GoVal.vInt 1)]
        [("a::b::z".data, GoVal.vInt 2)]) "a::b::z".data = none :=
  merge_suppresses_under_immediate_parent
    [("a::b::c".data, GoVal.vStr "u")] [("a::b::z".data, GoVal.vInt 1)]
    [("a::b::z".data, GoVal.vInt 2)] ("a::b::c".data, GoVal.vStr "u")
    (by decide) (by decide) (by decide) (by decide) (by decide)
    "a::b::z".data ⟨2, by decide, by decide, by decide⟩
    (fun w hw => absurd (congrArg Prod.fst (List.mem_singleton.mp hw))
      (show ¬ "a::b::z".data = "a::b::c".data from by decide))

/-- Claim C4 counterexample to the second half as stated: the user
value at a::b deep-equals the old default and the new baseline supplies
9 there, but the merge result drops a::b entirely, because the sibling
user path a::c marks the shared parent a and suppresses the new
baseline children under it. -/
theorem merge_default_adoption_counterexample :
    ValuesEqual (GoVal.vInt 1) (GoVal.vInt 1) = true ∧
    lookupKV [("a::b".data, GoVal.vInt 1)] "a::b".data = some (GoVal.vInt 1) ∧
    lookupKV [("a::b".data, GoVal.vInt 9)] "a::b".data = some (GoVal.vInt 9) ∧
    lookupKV (Merge [("a::b".data, GoVal.vInt 1), ("a::c".data, GoVal.vInt 2)]
        [("a::b".data, GoVal.vInt 1)] [("a::b".data, GoVal.vInt 9)]) "a::b".data = none :=
  ⟨by decide, by decide, by decide, by decide⟩

/-- Claim C4 (amended): for a binding of path p in the user document,
if p is absent from the old defaults or carries a value not deep-equal
to the old default, the merge result maps p to the user value; if the
user value deep-equals the old default, the merge result at p is
whatever the new baseline supplies, except that p is absent whenever it
falls under a customized parent map. -/
theorem merge_user_path_fate
    (user old new : GoMap) (p : List Char) (v : GoVal)
    (hnu : (user.map Prod.fst).Nodup) (hnn : (new.map Prod.fst).Nodup)
    (hmem : (p, v) ∈ user) :
    ((lookupKV old p = none ∨
        ∃ ov, lookupKV old p = some ov ∧ ValuesEqual v ov = false) →
      lookupKV (Merge user old new) p = some v) ∧
    (∀ ov, lookupKV old p = some ov → ValuesEqual v ov = true →
      lookupKV (Merge user old new) p =
        (if isUnderCustomizedParent p (findCustomizedParentMaps user old) = true
         then none
         else lookupKV new p)) := by
  constructor
  · intro hcust
    simp only [Merge]
    exact merge_overlay_mem old p v hcust user _ hnu hmem
  · intro ov hov hve
    simp only [Merge]
    have hall : ∀ w, (p, w) ∈ user → ∃ ov2, lookupKV old p = some ov2 ∧ ValuesEqual w ov2 = true := by
      intro w hw
      have : w = v := by
        have h1 := mem_lookupKV hnu hw
        have h2 := mem_lookupKV hnu hmem
        rw [h1] at h2
        exact Option.some.inj h2
      subst this
      exact ⟨ov, hov, hve⟩
    rw [merge_overlay_preserve old p user _ hall]
    cases hu : isUnderCustomizedParent p (findCustomizedParentMaps user old) with
    | true =>
      rw [if_pos rfl]
      exact merge_base_lookup_none _ _ hu new [] rfl
    | false =>
      rw [if_neg (by simp)]
      cases hn : lookupKV new p with
      | none =>
        rw [merge_base_lookup _ _ hu new [] hnn (by rw [hn]; rfl)]
        rfl
      | some w => exact merge_base_lookup_some _ _ w hu new [] hnn hn

/-- Witness for claim C4: a customized binding survives the merge with
the user value, and an unchanged binding adopts the new default. -/
theorem merge_user_path_fate_witness :
    lookupKV (Merge [("x".data, GoVal.vInt 1)] [("x".data, GoVal.vInt 7)]
        [("x".data, GoVal.vInt 5)]) "x".data = some (GoVal.vInt 1) ∧
    lookupKV (Merge [("y".data, GoVal.vInt 7)] [("y".data, GoVal.vInt 7)]
        [("y".data, GoVal.vInt 5)]) "y".data = some (GoVal.vInt 5) := by
  constructor
  · exact (merge_user_path_fate [("x".data, GoVal.vInt 1)] [("x".data, GoVal.vInt 7)]
      [("x".data, GoVal.vInt 5)] "x".data (GoVal.vInt 1)
      (by decide) (by decide) (by decide)).1
      (Or.inr ⟨GoVal.vInt 7, by decide, by decide⟩)
  · have h := (merge_user_path_fate [("y".data, GoVal.vInt 7)] [("y".data, GoVal.vInt 7)]
      [("y".data, GoVal.vInt 5)] "y".data (GoVal.vInt 7)
      (by decide) (by decide) (by decide)).2
      (GoVal.vInt 7) (by decide) (by decide)
    rw [h]
    decide

/-! ### Image tag detection -/

/-- The change produced by one user binding in DetectCustomImageTags,
when any. -/
def detectOne (oldDefaults newDefaults : GoMap) (kv : List Char × GoVal) : Option ImageChange :=
  if isImageTagPath kv.1 then
    match kv.2 with
    | .vStr userTag =>
      match lookupKV oldDefaults kv.1, lookupKV newDefaults kv.1 with
      | some (.vStr oldStr), some (.vStr newStr) =>
        if userTag ≠ oldStr ∧ newStr ≠ oldStr
        then some ⟨kv.1, userTag, oldStr, newStr, true⟩
        else none
      | _, _ => none
    | _ => none
  else none

theorem detectStep_eq (old new : GoMap) (changes : List ImageChange)
    (kv : List Char × GoVal) :
    detectStep old new changes kv = changes ++ (detectOne old new kv).toList := by
  rw [detectStep, detectOne]
  split
  · split
    · split
      · split
        · simp
        · simp
      · simp
    · simp
  · simp

theorem detect_foldl (old new : GoMap) :
    ∀ (user : GoMap) (init : List ImageChange),
      user.foldl (detectStep old new) init = init ++ user.filterMap (detectOne old new) := by
  intro user
  induction user with
  | nil => intro init; simp
  | cons a rest ih =>
    intro init
    rw [List.foldl_cons, ih, detectStep_eq, List.filterMap_cons]
    cases detectOne old new a with
    | none => simp
    | some c => simp

theorem detectOne_some_iff (old new : GoMap) (kv : List Char × GoVal) (c : ImageChange) :
    detectOne old new kv = some c ↔
      (isImageTagPath kv.1 = true ∧ ∃ s os ns,
        kv.2 = GoVal.vStr s ∧
        lookupKV old kv.1 = some (GoVal.vStr os) ∧
        lookupKV new kv.1 = some (GoVal.vStr ns) ∧
        s ≠ os ∧ ns ≠ os ∧ c = ⟨kv.1, s, os, ns, true⟩) := by
  constructor
  · intro h
    rw [detectOne] at h
    by_cases him : isImageTagPath kv.1
    · rw [if_pos him] at h
      refine ⟨him, ?_⟩
      cases hv : kv.2 with
      | vStr s =>
        rw [hv] at h
        cases ho : lookupKV old kv.1 with
        | none => rw [ho] at h; cases h
        | some w =>
          cases hn : lookupKV new kv.1 with
          | none =>
            rw [ho, hn] at h
            cases w <;> cases h
          | some w2 =>
            rw [ho, hn] at h
            cases w with
            | vStr os =>
              cases w2 with
              | vStr ns =>
                dsimp only at h
                by_cases hc : s ≠ os ∧ ns ≠ os
                · rw [if_pos hc] at h
                  exact ⟨s, os, ns, rfl, rfl, rfl, hc.1, hc.2, (Option.some.inj h).symm⟩
                · rw [if_neg hc] at h; cases h
              | vNull => cases h
              | vBool b => cases h
              | vInt n2 => cases h
              | vSeq xs => cases h
              | vMap m => cases h
            | vNull => cases h
            | vBool b => cases h
            | vInt n2 => cases h
            | vSeq xs => cases h
            | vMap m => cases h
      | vNull => rw [hv] at h; cases h
      | vBool b => rw [hv] at h; cases h
      | vInt n2 => rw [hv] at h; cases h
      | vSeq xs => rw [hv] at h; cases h
      | vMap m => rw [hv] at h; cases h
    · rw [if_neg him] at h; cases h
  · rintro ⟨him, s, os, ns, hv, ho, hn, hso, hns, rfl⟩
    rw [detectOne, if_pos him, hv, ho, hn]
    dsimp only
    rw [if_pos ⟨hso, hns⟩]

/-- Claim C9: DetectCustomImageTags reports a change at a path exactly
when the path matches an image-tag suffix, all three documents hold a
string there, the user string differs from the old default, and the old
default differs from the new default; non-string values and unchanged
defaults produce no change. -/
theorem detect_custom_image_tags_iff (user old new : GoMap)
    (hnu : (user.map Prod.fst).Nodup) (p : List Char) :
    (∃ c ∈ DetectCustomImageTags user old new, c.Path = p) ↔
    (isImageTagPath p = true ∧ ∃ s os ns,
      lookupKV user p = some (GoVal.vStr s) ∧
      lookupKV old p = some (GoVal.vStr os) ∧
      lookupKV new p = some (GoVal.vStr ns) ∧
      s ≠ os ∧ ns ≠ os) := by
  rw [DetectCustomImageTags, detect_foldl, List.nil_append]
  constructor
  · rintro ⟨c, hc, rfl⟩
    rcases List.mem_filterMap.mp hc with ⟨kv, hkv, hone⟩
    rcases (detectOne_some_iff old new kv c).mp hone with
      ⟨him, s, os, ns, hv, ho, hn, hso, hns, rfl⟩
    have hkv2 : kv = (kv.1, GoVal.vStr s) := by
      cases kv
      simpa using hv
    refine ⟨him, s, os, ns, ?_, ho, hn, hso, hns⟩
    show lookupKV user kv.1 = some (GoVal.vStr s)
    exact mem_lookupKV hnu (hkv2 ▸ hkv)
  · rintro ⟨him, s, os, ns, hu, ho, hn, hso, hns⟩
    refine ⟨⟨p, s, os, ns, true⟩, ?_, rfl⟩
    refine List.mem_filterMap.mpr ⟨(p, GoVal.vStr s), lookupKV_mem hu, ?_⟩
    exact (detectOne_some_iff old new (p, GoVal.vStr s) _).mpr
      ⟨him, s, os, ns, rfl, ho, hn, hso, hns, rfl⟩

/-- Witness for claim C9 at the scenario of the spec: user tag 1.5.0,
old default 1.0.0, new default 2.0.0 at path image::tag. -/
theorem detect_custom_image_tags_witness :
    ∃ c ∈ DetectCustomImageTags
        [("image::tag".data, GoVal.vStr "1.5.0")]
        [("image::tag".data, GoVal.vStr "1.0.0")]
        [("image::tag".data, GoVal.vStr "2.0.0")],
      c.Path = "image::tag".data :=
  (detect_custom_image_tags_iff _ _ _ (by decide) _).mpr
    ⟨by decide, "1.5.0", "1.0.0", "2.0.0", rfl, rfl, rfl, by decide, by decide⟩

/-! ### Unflatten: preservation of children under empty markers -/

/-- The tree has a mapping at the given part path that contains the
given child key. -/
def treeHasChild (t : GoMap) (ps : List (List Char)) (k0 : List Char) : Prop :=
  ∃ m, treeGet t ps = some (GoVal.vMap m) ∧ (lookupKV m (unescapeChars k0)).isSome = true

theorem treeGet_cons (t : GoMap) (p : List Char) (ps : List (List Char)) (h : ps ≠ []) :
    treeGet t (p :: ps) =
      match lookupKV t (unescapeChars p) with
      | some (.vMap m) => treeGet m ps
      | _ => none := by
  cases ps with
  | nil => exact absurd rfl h
  | cons q qs => rfl

theorem setPath_cons (t : GoMap) (p : List Char) (rs : List (List Char)) (v : GoVal)
    (h : rs ≠ []) :
    setPath t (p :: rs) v =
      insertKV t (unescapeChars p)
        (.vMap (setPath
          (match lookupKV t (unescapeChars p) with
           | some (.vMap m) => m
           | _ => []) rs v)) := by
  cases rs with
  | nil => exact absurd rfl h
  | cons q qs => rfl

theorem setPath_single (t : GoMap) (p : List Char) (v : GoVal) :
    setPath t [p] v =
      match lookupKV t (unescapeChars p) with
      | none => insertKV t (unescapeChars p) v
      | some _ =>
        match v with
        | .vMap [] => t
        | _ => insertKV t (unescapeChars p) v := rfl

theorem insert_keeps_isSome (m : GoMap) (r k : List Char) (w : GoVal)
    (hm : (lookupKV m k).isSome = true) : (lookupKV (insertKV m r w) k).isSome = true := by
  by_cases hk : k = r
  · rw [hk, lookupKV_insertKV_self]; rfl
  · rw [lookupKV_insertKV_ne _ _ hk]; exact hm

theorem setPath_keeps_isSome (v : GoVal) (k : List Char) :
    ∀ (rs : List (List Char)) (m : GoMap),
      (lookupKV m k).isSome = true → (lookupKV (setPath m rs v) k).isSome = true := by
  intro rs
  induction rs with
  | nil => intro m hm; exact hm
  | cons r rs' ih =>
    intro m hm
    cases rs' with
    | nil =>
      rw [setPath_single]
      cases hl : lookupKV m (unescapeChars r) with
      | none => exact insert_keeps_isSome _ _ _ _ hm
      | some w =>
        cases v with
        | vMap mv =>
          cases mv with
          | nil => exact hm
          | cons y ys => exact insert_keeps_isSome _ _ _ _ hm
        | vNull => exact insert_keeps_isSome _ _ _ _ hm
        | vBool b => exact insert_keeps_isSome _ _ _ _ hm
        | vInt n => exact insert_keeps_isSome _ _ _ _ hm
        | vStr s => exact insert_keeps_isSome _ _ _ _ hm
        | vSeq xs => exact insert_keeps_isSome _ _ _ _ hm
    | cons q qs =>
      rw [setPath_cons _ _ _ _ (by simp)]
      exact insert_keeps_isSome _ _ _ _ hm

theorem setPath_sets_head (v : GoVal) (k0 : List Char) (rest' : List (List Char)) (n : GoMap) :
    (lookupKV (setPath n (k0 :: rest') v) (unescapeChars k0)).isSome = true := by
  cases rest' with
  | nil =>
    rw [setPath_single]
    cases hl : lookupKV n (unescapeChars k0) with
    | none => rw [lookupKV_insertKV_self]; rfl
    | some w =>
      cases v with
      | vMap mv =>
        cases mv with
        | nil => rw [hl]; rfl
        | cons y ys => rw [lookupKV_insertKV_self]; rfl
      | vNull => rw [lookupKV_insertKV_self]; rfl
      | vBool b => rw [lookupKV_insertKV_self]; rfl
      | vInt n2 => rw [lookupKV_insertKV_self]; rfl
      | vStr s => rw [lookupKV_insertKV_self]; rfl
      | vSeq xs => rw [lookupKV_insertKV_self]; rfl
  | cons q qs =>
    rw [setPath_cons _ _ _ _ (by simp)]
    rw [lookupKV_insertKV_self]
    rfl

theorem setPath_establish (v : GoVal) (k0 : List Char) :
    ∀ (ps rest' : List (List Char)) (t : GoMap), ps ≠ [] →
      treeHasChild (setPath t (ps ++ k0 :: rest') v) ps k0 := by
  intro ps
  induction ps with
  | nil => intro rest' t h; exact absurd rfl h
  | cons p ps' ih =>
    intro rest' t _
    cases ps' with
    | nil =>
      rw [show ([p] ++ k0 :: rest') = p :: k0 :: rest' from rfl]
      rw [setPath_cons t p (k0 :: rest') v (by simp)]
      refine ⟨setPath
          (match lookupKV t (unescapeChars p) with | some (.vMap m) => m | _ => [])
          (k0 :: rest') v, ?_, ?_⟩
      · show lookupKV _ (unescapeChars p) = _
        rw [lookupKV_insertKV_self]
      · exact setPath_sets_head v k0 rest' _
    | cons p2 ps'' =>
      rw [show ((p :: p2 :: ps'') ++ k0 :: rest') = p :: ((p2 :: ps'') ++ k0 :: rest') from rfl]
      rw [setPath_cons t p _ v (by simp)]
      obtain ⟨m, hm1, hm2⟩ := ih rest'
        (match lookupKV t (unescapeChars p) with | some (.vMap m) => m | _ => []) (by simp)
      refine ⟨m, ?_, hm2⟩
      rw [treeGet_cons _ _ _ (by simp), lookupKV_insertKV_self]
      exact hm1

theorem treeGet_insertKV_ne (t : GoMap) (kx : List Char) (w : GoVal) (p : List Char)
    (ps' : List (List Char)) (hne : unescapeChars p ≠ kx) :
    treeGet (insertKV t kx w) (p :: ps') = treeGet t (p :: ps') := by
  cases ps' with
  | nil =>
    show lookupKV _ _ = lookupKV _ _
    rw [lookupKV_insertKV_ne _ _ hne]
  | cons q qs =>
    rw [treeGet_cons _ _ _ (by simp), treeGet_cons _ _ _ (by simp),
      lookupKV_insertKV_ne _ _ hne]

theorem setPath_head_shape (t : GoMap) (r : List Char) (rs' : List (List Char)) (v : GoVal) :
    setPath t (r :: rs') v = t ∨
    ∃ w, setPath t (r :: rs') v = insertKV t (unescapeChars r) w := by
  cases rs' with
  | nil =>
    rw [setPath_single]
    cases lookupKV t (unescapeChars r) with
    | none => exact Or.inr ⟨v, rfl⟩
    | some w =>
      cases v with
      | vMap mv =>
        cases mv with
        | nil => exact Or.inl rfl
        | cons y ys => exact Or.inr ⟨_, rfl⟩
      | vNull => exact Or.inr ⟨_, rfl⟩
      | vBool b => exact Or.inr ⟨_, rfl⟩
      | vInt n2 => exact Or.inr ⟨_, rfl⟩
      | vStr s => exact Or.inr ⟨_, rfl⟩
      | vSeq xs => exact Or.inr ⟨_, rfl⟩
  | cons q qs =>
    rw [setPath_cons _ _ _ _ (by simp)]
    exact Or.inr ⟨_, rfl⟩

theorem setPath_preserve (v : GoVal) (k0 : List Char) :
    ∀ (rs ps : List (List Char)) (t : GoMap),
      (rs.IsPrefix ps → v = GoVal.vMap []) →
      (∀ x ∈ rs, unescapeChars x = x) →
      (∀ x ∈ ps, unescapeChars x = x) →
      treeHasChild t ps k0 → treeHasChild (setPath t rs v) ps k0 := by
  intro rs
  induction rs with
  | nil => intro ps t _ _ _ h; exact h
  | cons r rs' ih =>
    intro ps t hpre hidr hidp hphi
    cases ps with
    | nil =>
      obtain ⟨m, hm, _⟩ := hphi
      cases hm
    | cons p ps' =>
      by_cases hrp : r = p
      · subst hrp
        cases ps' with
        | nil =>
          obtain ⟨m, hm, hk⟩ := hphi
          have hm2 : lookupKV t (unescapeChars r) = some (GoVal.vMap m) := hm
          cases rs' with
          | nil =>
            have hv : v = GoVal.vMap [] := hpre (List.prefix_refl _)
            rw [setPath_single, hm2, hv]
            exact ⟨m, hm, hk⟩
          | cons r2 rs'' =>
            rw [setPath_cons _ _ _ _ (by simp), hm2]
            refine ⟨setPath m (r2 :: rs'') v, ?_, ?_⟩
            · show lookupKV _ _ = _
              rw [lookupKV_insertKV_self]
            · exact setPath_keeps_isSome v _ _ m hk
        | cons p2 ps'' =>
          obtain ⟨m, hm, hk⟩ := hphi
          rw [treeGet_cons _ _ _ (by simp)] at hm
          cases hl : lookupKV t (unescapeChars r) with
          | none => rw [hl] at hm; cases hm
          | some w =>
            cases w with
            | vMap m1 =>
              rw [hl] at hm
              cases rs' with
              | nil =>
                have hv : v = GoVal.vMap [] := hpre ⟨p2 :: ps'', rfl⟩
                rw [setPath_single, hl, hv]
                refine ⟨m, ?_, hk⟩
                rw [treeGet_cons _ _ _ (by simp), hl]
                exact hm
              | cons r2 rs'' =>
                rw [setPath_cons _ _ _ _ (by simp), hl]
                obtain ⟨m2, hm2, hk2⟩ := ih (p2 :: ps'') m1
                  (fun hp => hpre (List.cons_prefix_cons.mpr ⟨rfl, hp⟩))
                  (fun x hx => hidr x (List.mem_cons_of_mem _ hx))
                  (fun x hx => hidp x (List.mem_cons_of_mem _ hx))
                  ⟨m, hm, hk⟩
                refine ⟨m2, ?_, hk2⟩
                rw [treeGet_cons _ _ _ (by simp), lookupKV_insertKV_self]
                exact hm2
            | vNull => rw [hl] at hm; cases hm
            | vBool b => rw [hl] at hm; cases hm
            | vInt n2 => rw [hl] at hm; cases hm
            | vStr s => rw [hl] at hm; cases hm
            | vSeq xs => rw [hl] at hm; cases hm
      · have hne : unescapeChars p ≠ unescapeChars r := by
          rw [hidr r (List.mem_cons_self _ _), hidp p (List.mem_cons_self _ _)]
          exact fun he => hrp he.symm
        obtain ⟨m, hm, hk⟩ := hphi
        rcases setPath_head_shape t r rs' v with hsh | ⟨w, hsh⟩
        · rw [hsh]
          exact ⟨m, hm, hk⟩
        · rw [hsh]
          refine ⟨m, ?_, hk⟩
          rw [treeGet_insertKV_ne _ _ _ _ _ hne]
          exact hm

theorem countSep_zero_unescape_id : ∀ (l : List Char), countSep l = 0 → unescapeChars l = l := by
  intro l
  induction l using unescapeChars.induct with
  | case1 => intro _; rfl
  | case2 c => intro _; rfl
  | case3 c1 c2 => intro _; rfl
  | case4 c1 c2 c3 rest hsep ih =>
    intro hc
    obtain ⟨h1, h2, h3⟩ := hsep
    subst h1; subst h2; subst h3
    exfalso
    rw [countSep] at hc
    rw [if_neg (by simp)] at hc
    rw [countSep, if_pos ⟨rfl, rfl⟩] at hc
    exact Nat.succ_ne_zero _ hc
  | case5 c1 c2 c3 rest hsep ih =>
    intro hc
    rw [unescapeChars, if_neg hsep]
    rw [countSep] at hc
    by_cases hs : c1 = ':' ∧ c2 = ':'
    · rw [if_pos hs] at hc
      exact absurd hc (Nat.succ_ne_zero _)
    · rw [if_neg hs] at hc
      rw [ih hc]

theorem splitSep_ne_nil : ∀ (s : List Char), splitSep s ≠ [] := by
  intro s
  induction s using splitSep.induct with
  | case1 => simp [splitSep]
  | case2 c => simp [splitSep]
  | case3 c1 c2 rest hsep ih =>
    rw [splitSep, if_pos hsep]
    simp
  | case4 c1 c2 rest hsep hnil ih =>
    rw [splitSep, if_neg hsep, hnil]
    simp
  | case5 c1 c2 rest hsep part parts heq ih =>
    rw [splitSep, if_neg hsep, heq]
    simp

theorem splitSep_head_shape : ∀ (c : Char) (rest : List Char),
    (splitSep (c :: rest)).head? = some [] ∨
    ∃ t, (splitSep (c :: rest)).head? = some (c :: t) := by
  intro c rest
  cases rest with
  | nil => exact Or.inr ⟨[], rfl⟩
  | cons c2 r2 =>
    rw [splitSep]
    by_cases hs : c = ':' ∧ c2 = ':'
    · rw [if_pos hs]
      exact Or.inl rfl
    · rw [if_neg hs]
      cases hx : splitSep (c2 :: r2) with
      | nil => exact Or.inr ⟨[], rfl⟩
      | cons part parts => exact Or.inr ⟨part, rfl⟩

theorem splitSep_no_sep : ∀ (s : List Char), ∀ part ∈ splitSep s, countSep part = 0 := by
  intro s
  induction s using splitSep.induct with
  | case1 =>
    intro part hp
    rcases List.mem_singleton.mp hp with rfl
    rfl
  | case2 c =>
    intro part hp
    rcases List.mem_singleton.mp hp with rfl
    rfl
  | case3 c1 c2 rest hsep ih =>
    intro part hp
    rw [splitSep, if_pos hsep] at hp
    rcases List.mem_cons.mp hp with rfl | hp2
    · rfl
    · exact ih part hp2
  | case4 c1 c2 rest hsep hnil ih =>
    intro part hp
    exact absurd hnil (splitSep_ne_nil _)
  | case5 c1 c2 rest hsep part0 parts heq ih =>
    intro part hp
    rw [splitSep, if_neg hsep, heq] at hp
    rcases List.mem_cons.mp hp with rfl | hp2
    · have h0 : countSep part0 = 0 := ih part0 (by rw [heq]; exact List.mem_cons_self _ _)
      cases part0 with
      | nil => rfl
      | cons h t =>
        have hh := splitSep_head_shape c2 rest
        rw [heq] at hh
        have hhc : h = c2 := by
          rcases hh with hh | ⟨t2, hh⟩
          · simp at hh
          · simp at hh
            exact hh.1
        rw [countSep]
        rw [if_neg (by
          intro hand
          exact hsep ⟨hand.1, hhc ▸ hand.2⟩)]
        exact h0
    · exact ih part (by rw [heq]; exact List.mem_cons_of_mem _ hp2)

theorem splitSep_unescape_id (s : List Char) :
    ∀ part ∈ splitSep s, unescapeChars part = part :=
  fun part hp => countSep_zero_unescape_id part (splitSep_no_sep s part hp)

theorem insSortedPath_perm (a : List Char) (l : List (List Char)) :
    (insSortedPath a l).Perm (a :: l) := by
  induction l with
  | nil => exact List.Perm.refl _
  | cons b bs ih =>
    rw [insSortedPath]
    cases hcond : pathLess a b
    · simp only [Bool.false_eq_true, if_false]
      exact (ih.cons b).trans (List.Perm.swap a b bs)
    · simp only [if_true]
      exact List.Perm.refl _

theorem sortPaths_perm (l : List (List Char)) : (sortPaths l).Perm l := by
  induction l with
  | nil => exact List.Perm.refl _
  | cons a as ih =>
    exact (insSortedPath_perm a (sortPaths as)).trans (ih.cons a)

theorem unflatten_fold_preserve (flat : GoMap) (ps : List (List Char)) (k0 : List Char)
    (hmark : ∀ r w, lookupKV flat r = some w → (splitSep r).IsPrefix ps → w = GoVal.vMap [])
    (hidp : ∀ x ∈ ps, unescapeChars x = x) :
    ∀ (L : List (List Char)) (t : GoMap),
      treeHasChild t ps k0 →
      treeHasChild
        (L.foldl
          (fun tree path =>
            match lookupKV flat path with
            | some value => setPath tree (splitSep path) value
            | none => tree)
          t) ps k0 := by
  intro L
  induction L with
  | nil => intro t h; exact h
  | cons r L2 ih =>
    intro t h
    rw [List.foldl_cons]
    apply ih
    cases hl : lookupKV flat r with
    | none => exact h
    | some w =>
      exact setPath_preserve w k0 (splitSep r) ps t
        (fun hp => hmark r w hl hp)
        (splitSep_unescape_id r)
        hidp h

/-- Claim C6 (amended): for a flat document with a binding at the key D
whose split segment list properly extends that of P, and in which every
binding whose split segment list is a prefix of that of P is an
empty-container marker (in particular the marker at P itself), the tree
produced by Unflatten maps the segment path of P to a non-empty
mapping that contains the next segment of D, not the empty-container
marker.  Without the proviso on ancestor bindings the claim fails, as
the counterexample shows. -/
theorem unflatten_children_win
    (flat : GoMap) (P D : List Char) (v : GoVal) (k0 : List Char) (rest2 : List (List Char))
    (hnd : (flat.map Prod.fst).Nodup)
    (hP : (P, GoVal.vMap []) ∈ flat)
    (hD : (D, v) ∈ flat)
    (hsplit : splitSep D = splitSep P ++ k0 :: rest2)
    (hanc : ∀ kv ∈ flat, (splitSep kv.1).IsPrefix (splitSep P) → kv.2 = GoVal.vMap []) :
    ∃ m, treeGet (Unflatten flat) (splitSep P) = some (GoVal.vMap m) ∧
      (lookupKV m (unescapeChars k0)).isSome = true ∧ m ≠ [] := by
  have hkeys : D ∈ flat.map Prod.fst := List.mem_map.mpr ⟨(D, v), hD, rfl⟩
  have hDL : D ∈ sortPaths (flat.map Prod.fst) :=
    (sortPaths_perm _).mem_iff.mpr hkeys
  obtain ⟨L1, L2, hL⟩ := List.append_of_mem hDL
  have hlD : lookupKV flat D = some v := mem_lookupKV hnd hD
  simp only [Unflatten]
  rw [hL, List.foldl_append, List.foldl_cons, hlD]
  dsimp only
  rw [hsplit]
  have hbase : treeHasChild
      (setPath
        (L1.foldl
          (fun tree path =>
            match lookupKV flat path with
            | some value => setPath tree (splitSep path) value
            | none => tree) [])
        (splitSep P ++ k0 :: rest2) v) (splitSep P) k0 :=
    setPath_establish v k0 (splitSep P) rest2 _ (splitSep_ne_nil P)
  have hfinal := unflatten_fold_preserve flat (splitSep P) k0
    (fun r w hl hp => hanc (r, w) (lookupKV_mem hl) hp)
    (splitSep_unescape_id P) L2 _ hbase
  obtain ⟨m, hm, hk⟩ := hfinal
  refine ⟨m, hm, hk, ?_⟩
  intro hme
  subst hme
  cases hk

/-- Claim C6 counterexample to the unamended statement: the flat
document binds a to the scalar 5, a::b to an empty-container marker,
and a::b::c to a string.  It contains the marker at the path a.b and an
entry at its proper descendant a.b.c, yet the reconstructed tree is
exactly the binding a to 5: the descendant entries are gone and the
path a.b denotes nothing at all, because the shallow scalar binding is
processed last and overwrites the map built for the descendants. -/
theorem unflatten_children_counterexample :
    lookupKV [("a".data, GoVal.vInt 5), ("a::b".data, GoVal.vMap []),
        ("a::b::c".data, GoVal.vStr "x")] "a::b".data = some (GoVal.vMap []) ∧
    splitSep "a::b::c".data = splitSep "a::b".data ++ ["c".data] ∧
    Unflatten [("a".data, GoVal.vInt 5), ("a::b".data, GoVal.vMap []),
        ("a::b::c".data, GoVal.vStr "x")] = [("a".data, GoVal.vInt 5)] ∧
    treeGet (Unflatten [("a".data, GoVal.vInt 5), ("a::b".data, GoVal.vMap []),
        ("a::b::c".data, GoVal.vStr "x")]) (splitSep "a::b".data) = none ∧
    treeGet (Unflatten [("a".data, GoVal.vInt 5), ("a::b".data, GoVal.vMap []),
        ("a::b::c".data, GoVal.vStr "x")]) (splitSep "a::b::c".data) = none :=
  ⟨by decide, by decide, by decide, by decide, by decide⟩

/-- Witness for claim C6 at the regression scenario of the test suite:
a marker at pdb together with the child pdb::create. -/
theorem unflatten_children_win_witness :
    ∃ m, treeGet (Unflatten [("pdb".data, GoVal.vMap []), ("pdb::create".data, GoVal.vBool true)])
        (splitSep "pdb".data) = some (GoVal.vMap m) ∧
      (lookupKV m (unescapeChars "create".data)).isSome = true ∧ m ≠ [] :=
  unflatten_children_win
    [("pdb".data, GoVal.vMap []), ("pdb::create".data, GoVal.vBool true)]
    "pdb".data "pdb::create".data (GoVal.vBool true) "create".data []
    (by decide) (by decide) (by decide) (by decide)
    (by decide)
